import Mathlib

/-!
Verification development for a crossword CSP solver (generate.py).

The solver fills a crossword grid by assigning vocabulary words to
word-slot variables, using node consistency, AC-3 arc-consistency
propagation, and heuristic backtracking search.

The Problem Instance collaborator (crossword.py) is not part of the core
source; its interface (variables, vocabulary, overlap function, neighbor
relation) is modelled from the spec.  All solver functions below are
translated from generate.py.  Recursive procedures are given an explicit
fuel parameter; the fuel supplied by the wrappers is proven sufficient via
the termination measure of the corresponding Python loop, so the wrappers
compute exactly what the Python functions compute.
-/

namespace CW

/-- A word is a list of characters (a Python string). -/
abbrev Word := List Char

/-- Direction of a word slot (Variable.ACROSS / Variable.DOWN). -/
inductive Direction where
  | across
  | down
deriving DecidableEq, Repr

/-- Modelled from the spec: a Variable identifies a run of fillable cells,
with starting cell (i, j), direction and required length; equality is
structural on all four attributes (crossword.py is not under src). -/
structure Variable where
  i : Nat
  j : Nat
  direction : Direction
  length : Nat
deriving DecidableEq, Repr

/-- An assignment: the items of the Python dict mapping variables to words,
in insertion order (keys are unique in any dict-derived assignment). -/
abbrev Assignment := List (Variable × Word)

/-- The domain store: current candidate words of each variable. -/
abbrev Domains := Variable → List Word

/-- Modelled from the spec: the Problem Instance supplies the set of
variables, the vocabulary, and the overlap function giving for a pair of
distinct variables the pair of local letter indices of their shared cell,
if any (crossword.py is not under src). -/
structure Crossword where
  vars : List Variable
  words : List Word
  overlaps : Variable → Variable → Option (Nat × Nat)

/-- Modelled from the spec: neighbors of a variable are the other
variables that overlap it (crossword.py is not under src). -/
def neighbors (c : Crossword) (x : Variable) : List Variable :=
  c.vars.filter (fun v => decide (v ≠ x) && (c.overlaps x v).isSome)

/-- `var in assignment` for the Python dict. -/
def hasKey (a : Assignment) (v : Variable) : Bool :=
  a.any (fun p => decide (p.1 = v))

/-- The keys of an assignment. -/
def keysA (a : Assignment) : List Variable :=
  a.map Prod.fst

/-- `assignment[var] = value` on a Python dict: overwrite in place if the
key is present, else append the new entry. -/
def insertA (a : Assignment) (v : Variable) (w : Word) : Assignment :=
  if hasKey a v then
    a.map (fun p => if p.1 = v then (v, w) else p)
  else
    a ++ [(v, w)]

/-- `del assignment[var]` on a Python dict: drop the entry with that key. -/
def eraseA (a : Assignment) (v : Variable) : Assignment :=
  a.filter (fun p => decide (p.1 ≠ v))

/-- Initial domain store: every variable starts with the full vocabulary
(`self.domains` in CrosswordCreator.__init__). -/
def initialDomains (c : Crossword) : Domains :=
  fun _ => c.words

/-- CrosswordCreator.enforce_node_consistency: keep in each domain exactly
the words whose length equals the variable length. -/
def enforce_node_consistency (d : Domains) : Domains :=
  fun v => (d v).filter (fun w => decide (w.length = v.length))

/-- CrosswordCreator.revise: make x arc consistent with y, removing from
the domain of x every word with no supporting word in the domain of y;
returns whether anything was removed, together with the updated store. -/
def revise (c : Crossword) (d : Domains) (x y : Variable) : Bool × Domains :=
  match c.overlaps x y with
  | none => (false, d)
  | some (i, j) =>
    let toRemove :=
      (d x).filter (fun wx => !((d y).any (fun wy => decide (wx[i]? = wy[j]?))))
    (!toRemove.isEmpty,
     fun v => if v = x then (d x).filter (fun w => decide (w ∉ toRemove)) else d v)

/-- One-step worklist body of CrosswordCreator.ac3, with explicit fuel.
Each loop iteration consumes one unit of fuel; `ac3` supplies fuel proven
to exceed the loop termination measure, so the fuel never runs out. -/
def ac3go (c : Crossword) : Nat → List (Variable × Variable) → Domains → Bool × Domains
  | 0, _, d => (true, d)
  | _ + 1, [], d => (true, d)
  | fuel + 1, (x, y) :: t, d =>
    let rd := revise c d x y
    if rd.1 then
      if (rd.2 x).isEmpty then
        (false, rd.2)
      else
        ac3go c fuel
          (t ++ ((neighbors c x).filter (fun z => decide (z ≠ y))).map (fun z => (z, x)))
          rd.2
    else
      ac3go c fuel t d

/-- The sum of the current domain sizes over the variables of the instance
together with the sources of the pending arcs: the quantity that AC-3
shrinks. -/
def domainsMeasure (c : Crossword) (q : List (Variable × Variable)) (d : Domains) : Nat :=
  ((c.vars ++ q.map Prod.fst).toFinset).sum (fun v => (d v).length)

/-- Termination measure of the AC-3 worklist loop; strictly decreases at
every iteration. -/
def ac3Measure (c : Crossword) (q : List (Variable × Variable)) (d : Domains) : Nat :=
  (c.vars.length + 1) * domainsMeasure c q d + q.length

/-- The default arc list of CrosswordCreator.ac3 when arcs is None: all
pairs (x, y) with y a neighbor of x. -/
def defaultArcs (c : Crossword) : List (Variable × Variable) :=
  c.vars.flatMap (fun x => (neighbors c x).map (fun y => (x, y)))

/-- CrosswordCreator.ac3: process the worklist until empty (True) or until
some domain empties (False), starting from the given arcs or the default
arc list. -/
def ac3 (c : Crossword) (arcs : Option (List (Variable × Variable))) (d : Domains) :
    Bool × Domains :=
  let q :=
    match arcs with
    | none => defaultArcs c
    | some l => l
  ac3go c (ac3Measure c q d + 1) q d

/-- CrosswordCreator.assignment_complete: every variable of the crossword
is assigned. -/
def assignment_complete (c : Crossword) (a : Assignment) : Bool :=
  c.vars.all (fun v => hasKey a v)

/-- First check of CrosswordCreator.consistent: all assigned words are
distinct, phrased as in the source via len(set(values)) == len(dict). -/
def distinctOk (a : Assignment) : Bool :=
  decide ((a.map Prod.snd).dedup.length = a.length)

/-- Second check of CrosswordCreator.consistent: every assigned word has
the length its variable requires. -/
def lengthsOk (a : Assignment) : Bool :=
  a.all (fun p => decide (p.2.length = p.1.length))

/-- All ordered pairs of entries of the assignment, as iterated by the
nested loops of CrosswordCreator.consistent. -/
def pairList (a : Assignment) : List ((Variable × Word) × (Variable × Word)) :=
  a.flatMap (fun p => a.map (fun q => (p, q)))

/-- The body of the overlap check of CrosswordCreator.consistent for one
ordered pair of assigned entries. -/
def pairOk (c : Crossword) (p q : Variable × Word) : Bool :=
  if p.1 = q.1 then
    true
  else
    match c.overlaps p.1 q.1 with
    | none => true
    | some (i, j) => decide (p.2[i]? = q.2[j]?)

/-- CrosswordCreator.consistent: distinct words, correct lengths, and
agreeing letters on every overlap of assigned variables. -/
def consistent (c : Crossword) (a : Assignment) : Bool :=
  distinctOk a && lengthsOk a && (pairList a).all (fun pq => pairOk c pq.1 pq.2)

/-- Stable insertion into a list sorted by a Nat key: the inserted element
goes before the first element of strictly greater key. -/
def insertSorted (ke : Word → Nat) (x : Word) : List Word → List Word
  | [] => [x]
  | y :: ys => if ke x ≤ ke y then x :: y :: ys else y :: insertSorted ke x ys

/-- Stable sort by a Nat key, modelling Python sorted(-, key=-): a stable
sort is uniquely determined by the key order, so any stable sort computes
the same list as Python. -/
def sortByKey (ke : Word → Nat) : List Word → List Word
  | [] => []
  | x :: xs => insertSorted ke x (sortByKey ke xs)

/-- The constraint count of CrosswordCreator.order_domain_values: how many
words in the domains of unassigned neighbors the given word rules out. -/
def ruledOutCount (c : Crossword) (d : Domains) (v : Variable) (a : Assignment)
    (w : Word) : Nat :=
  (((neighbors c v).filter (fun n => !(hasKey a n))).map (fun n =>
    match c.overlaps v n with
    | none => 0
    | some (i, j) => ((d n).filter (fun w2 => decide (¬ w[i]? = w2[j]?))).length)).sum

/-- CrosswordCreator.order_domain_values: the domain of the variable,
stably sorted ascending by the number of neighbor values ruled out. -/
def order_domain_values (c : Crossword) (d : Domains) (v : Variable)
    (a : Assignment) : List Word :=
  sortByKey (ruledOutCount c d v a) (d v)

/-- The key of the Python min in select_unassigned_variable: domain size,
then negated neighbor count. -/
def selectKey (c : Crossword) (d : Domains) (v : Variable) : Int × Int :=
  (((d v).length : Int), -(((neighbors c v).length : Int)))

/-- Strict lexicographic comparison of Python pairs of integers. -/
def keyLt (p q : Int × Int) : Bool :=
  decide (p.1 < q.1 ∨ (p.1 = q.1 ∧ p.2 < q.2))

/-- Python min over a nonempty list: keep the current minimum, replace it
only by a strictly smaller key, so the first minimum wins. -/
def minByKey (ke : Variable → Int × Int) (x : Variable) (xs : List Variable) : Variable :=
  xs.foldl (fun b y => if keyLt (ke y) (ke b) then y else b) x

/-- CrosswordCreator.select_unassigned_variable: None when every variable
is assigned, otherwise the unassigned variable minimizing
(domain size, -degree). -/
def select_unassigned_variable (c : Crossword) (d : Domains) (a : Assignment) :
    Option Variable :=
  match c.vars.filter (fun v => !(hasKey a v)) with
  | [] => none
  | x :: xs => some (minByKey (selectKey c d) x xs)

/-- The number of variables of the instance not yet assigned: the depth
budget of the backtracking recursion. -/
def unassignedCount (c : Crossword) (a : Assignment) : Nat :=
  (c.vars.filter (fun v => !(hasKey a v))).length

/-- CrosswordCreator.backtrack with explicit fuel bounding the recursion
depth.  The candidate loop (assign, check consistency, recurse, undo on
failure) is the first successful branch over the ordered domain, which is
what the in-place mutation with undo computes. -/
def backtrackGo (c : Crossword) (d : Domains) : Nat → Assignment → Option Assignment
  | 0, _ => none
  | fuel + 1, a =>
    if assignment_complete c a then
      some a
    else
      match select_unassigned_variable c d a with
      | none => none
      | some v =>
        (order_domain_values c d v a).findSome? (fun w =>
          let a1 := insertA a v w
          if consistent c a1 then backtrackGo c d fuel a1 else none)

/-- CrosswordCreator.backtrack: the recursion depth is bounded by the
number of unassigned variables, which the supplied fuel exceeds. -/
def backtrack (c : Crossword) (d : Domains) (a : Assignment) : Option Assignment :=
  backtrackGo c d (unassignedCount c a + 1) a

/-- CrosswordCreator.solve: node consistency, then ac3 (its Boolean result
ignored by the source), then backtracking from the empty assignment. -/
def solve (c : Crossword) : Option Assignment :=
  let d1 := enforce_node_consistency (initialDomains c)
  let d2 := (ac3 c none d1).2
  backtrack c d2 []

/-- The overlap check of consistent with explicit bounds checking: `none`
models the IndexError Python would raise on an out-of-range letter index. -/
def pairOkChecked (c : Crossword) (p q : Variable × Word) : Option Bool :=
  if p.1 = q.1 then
    some true
  else
    match c.overlaps p.1 q.1 with
    | none => some true
    | some (i, j) =>
      match p.2[i]?, q.2[j]? with
      | some c1, some c2 => some (decide (c1 = c2))
      | _, _ => none

/-- The nested pair loop of consistent with bounds-checked indexing and
the early False return of the source. -/
def pairsChecked (c : Crossword) :
    List ((Variable × Word) × (Variable × Word)) → Option Bool
  | [] => some true
  | pq :: rest =>
    match pairOkChecked c pq.1 pq.2 with
    | none => none
    | some false => some false
    | some true => pairsChecked c rest

/-- CrosswordCreator.consistent with bounds-checked letter indexing:
`none` means the overlap check would have read past the end of a word. -/
def consistentChecked (c : Crossword) (a : Assignment) : Option Bool :=
  if !(distinctOk a) then some false
  else if !(lengthsOk a) then some false
  else pairsChecked c (pairList a)

/-- backtrackGo instrumented with the number of invocations of backtrack
performed (the top-level call included). -/
def backtrackGoI (c : Crossword) (d : Domains) : Nat → Assignment → Option Assignment × Nat
  | 0, _ => (none, 1)
  | fuel + 1, a =>
    if assignment_complete c a then
      (some a, 1)
    else
      match select_unassigned_variable c d a with
      | none => (none, 1)
      | some v =>
        let t := (order_domain_values c d v a).foldl
          (fun acc w =>
            match acc.1 with
            | some _ => acc
            | none =>
              let a1 := insertA a v w
              if consistent c a1 then
                let r := backtrackGoI c d fuel a1
                (r.1, acc.2 + r.2)
              else acc)
          (none, 0)
        (t.1, t.2 + 1)

/-- CrosswordCreator.solve instrumented with the number of invocations of
backtrack it performs. -/
def solveI (c : Crossword) : Option Assignment × Nat :=
  let d1 := enforce_node_consistency (initialDomains c)
  let d2 := (ac3 c none d1).2
  backtrackGoI c d2 (unassignedCount c [] + 1) []

/-- Big-step semantics of CrosswordCreator.backtrack with the Python dict
state made explicit.  `Run none a res afin` means: calling backtrack on the
dict in state a returns res and leaves the dict in state afin.
`Run (some (v, cs)) a res afin` is the candidate loop over the remaining
words cs for the selected variable v: each iteration mutates the dict with
`assignment[var] = value`, recurses when consistent, and on failure undoes
the mutation with `del assignment[var]` before the next iteration. -/
inductive Run (c : Crossword) (d : Domains) :
    Option (Variable × List Word) → Assignment → Option Assignment → Assignment → Prop where
  | complete (a : Assignment)
      (h : assignment_complete c a = true) :
      Run c d none a (some a) a
  | enter (a : Assignment) (v : Variable) (res : Option Assignment) (afin : Assignment)
      (hc : assignment_complete c a = false)
      (hs : select_unassigned_variable c d a = some v)
      (hr : Run c d (some (v, order_domain_values c d v a)) a res afin) :
      Run c d none a res afin
  | loopEnd (v : Variable) (a : Assignment) :
      Run c d (some (v, [])) a none a
  | loopSome (v : Variable) (w : Word) (rest : List Word) (a r a2 : Assignment)
      (hc : consistent c (insertA a v w) = true)
      (hr : Run c d none (insertA a v w) (some r) a2) :
      Run c d (some (v, w :: rest)) a (some r) a2
  | loopNone (v : Variable) (w : Word) (rest : List Word) (a a2 : Assignment)
      (res : Option Assignment) (a3 : Assignment)
      (hc : consistent c (insertA a v w) = true)
      (hr : Run c d none (insertA a v w) none a2)
      (hk : Run c d (some (v, rest)) (eraseA a2 v) res a3) :
      Run c d (some (v, w :: rest)) a res a3
  | loopBad (v : Variable) (w : Word) (rest : List Word) (a : Assignment)
      (res : Option Assignment) (a3 : Assignment)
      (hc : consistent c (insertA a v w) = false)
      (hk : Run c d (some (v, rest)) (eraseA (insertA a v w) v) res a3) :
      Run c d (some (v, w :: rest)) a res a3

/-- Instance precondition from the spec: overlap is queried symmetrically,
overlap(x,y) and overlap(y,x) are the same cell with indices swapped. -/
def SymmOverlaps (c : Crossword) : Prop :=
  ∀ x y i j, c.overlaps x y = some (i, j) → c.overlaps y x = some (j, i)

/-- Instance precondition: every recorded overlap index is within the
length of its variable. -/
def OverlapBounds (c : Crossword) : Prop :=
  ∀ x y i j, c.overlaps x y = some (i, j) → i < x.length ∧ j < y.length

/-- Arc consistency of the ordered pair (x, y) in a domain store: every
word of x has a supporting word in the domain of y. -/
def arcConsistent (c : Crossword) (d : Domains) (x y : Variable) : Prop :=
  ∀ i j, c.overlaps x y = some (i, j) →
    ∀ w ∈ d x, ∃ w2 ∈ d y, w[i]? = w2[j]?

/-- A total solution: a map from variables to vocabulary words of the
correct lengths, pairwise distinct across variables, agreeing on every
overlap. -/
def solutionCheck (c : Crossword) (f : Variable → Word) : Bool :=
  c.vars.all (fun v => decide (f v ∈ c.words) && decide ((f v).length = v.length)) &&
  c.vars.all (fun u => c.vars.all (fun v =>
    if u = v then
      true
    else
      decide (f u ≠ f v) &&
        (match c.overlaps u v with
         | none => true
         | some (i, j) => decide ((f u)[i]? = (f v)[j]?))))

/-- Concrete across slot of length 3 at (0, 0): the example of the spec. -/
def vA : Variable := ⟨0, 0, Direction.across, 3⟩

/-- Concrete down slot of length 3 at (0, 1): the example of the spec. -/
def vB : Variable := ⟨0, 1, Direction.down, 3⟩

/-- Overlap function of the example: letter 1 of vA crosses letter 0 of
vB. -/
def olapW : Variable → Variable → Option (Nat × Nat) :=
  fun x y =>
    if x = vA ∧ y = vB then some (1, 0)
    else if x = vB ∧ y = vA then some (0, 1)
    else none

/-- The satisfiable example instance of the spec: vocabulary CAT, CAR,
ART. -/
def cW : Crossword :=
  ⟨[vA, vB], ["CAT".toList, "CAR".toList, "ART".toList], olapW⟩

/-- The unsatisfiable example instance of the spec: vocabulary CAT, DOG,
no compatible letter at the crossing. -/
def cU : Crossword :=
  ⟨[vA, vB], ["CAT".toList, "DOG".toList], olapW⟩

/-- A one-variable instance with an empty vocabulary and no overlaps. -/
def cE : Crossword :=
  ⟨[vA], [], fun _ _ => none⟩

/-- The candidate solution of the example instance. -/
def fW : Variable → Word :=
  fun v => if v = vA then "CAT".toList else "ART".toList

/-- The assignment computed by solve on the example instance. -/
def aW : Assignment := [(vB, "ART".toList), (vA, "CAT".toList)]

/-- An empty domain store. -/
def dE : Domains := fun _ => []

theorem hasKey_iff {a : Assignment} {v : Variable} :
    hasKey a v = true ↔ v ∈ keysA a := by
  simp [hasKey, keysA, List.any_eq_true, List.mem_map]

theorem hasKey_false_iff {a : Assignment} {v : Variable} :
    hasKey a v = false ↔ ∀ p ∈ a, p.1 ≠ v := by
  constructor
  · intro h p hp hpe
    have ht : hasKey a v = true := by
      rw [hasKey, List.any_eq_true]
      exact ⟨p, hp, by simp [hpe]⟩
    rw [h] at ht
    exact Bool.false_ne_true ht
  · intro h
    cases hk : hasKey a v with
    | false => rfl
    | true =>
      exfalso
      rw [hasKey, List.any_eq_true] at hk
      obtain ⟨p, hp, hd⟩ := hk
      exact h p hp (by simpa using hd)

theorem insertA_of_not_hasKey {a : Assignment} {v : Variable} {w : Word}
    (hk : hasKey a v = false) : insertA a v w = a ++ [(v, w)] := by
  simp [insertA, hk]

theorem hasKey_append_single {a : Assignment} {v u : Variable} {w : Word} :
    hasKey (a ++ [(v, w)]) u = (hasKey a u || decide (v = u)) := by
  simp [hasKey, List.any_append]

theorem eraseA_append {a : Assignment} {v : Variable} {w : Word}
    (hk : hasKey a v = false) : eraseA (a ++ [(v, w)]) v = a := by
  have h := hasKey_false_iff.mp hk
  simp only [eraseA, List.filter_append]
  rw [List.filter_eq_self.mpr, List.filter_cons]
  · simp
  · intro p hp
    simpa using h p hp

theorem hasKey_eraseA (a : Assignment) (v : Variable) :
    hasKey (eraseA a v) v = false := by
  rw [hasKey_false_iff]
  intro p hp
  simp only [eraseA, List.mem_filter, decide_eq_true_eq] at hp
  exact hp.2

theorem mem_append_single {a : Assignment} {v : Variable} {w : Word}
    {p : Variable × Word} : p ∈ a ++ [(v, w)] ↔ p ∈ a ∨ p = (v, w) := by
  simp

theorem dedup_length_eq_iff {α : Type} [DecidableEq α] {l : List α} :
    l.dedup.length = l.length ↔ l.Nodup := by
  constructor
  · intro h
    have hs : l.dedup.Sublist l := l.dedup_sublist
    rw [← hs.eq_of_length h]
    exact l.nodup_dedup
  · intro h
    rw [List.dedup_eq_self.mpr h]

theorem length_filter_lt_of_imp {α : Type} {p q : α → Bool} {l : List α}
    (himp : ∀ x, q x = true → p x = true) {x0 : α} (hx0 : x0 ∈ l)
    (hp : p x0 = true) (hq : q x0 = false) :
    (l.filter q).length < (l.filter p).length := by
  have hqq : l.filter q = (l.filter p).filter q := by
    rw [List.filter_filter]
    apply List.filter_congr
    intro x _
    cases hqx : q x with
    | false => simp
    | true => simp [himp x hqx]
  rw [hqq]
  rw [List.length_filter_lt_length_iff_exists]
  exact ⟨x0, List.mem_filter.mpr ⟨hx0, hp⟩, by simp [hq]⟩

theorem hasKey_insertA_fresh {a : Assignment} {v u : Variable} {w : Word}
    (hk : hasKey a v = false) :
    hasKey (insertA a v w) u = (hasKey a u || decide (v = u)) := by
  rw [insertA_of_not_hasKey hk, hasKey_append_single]

theorem unassignedCount_insert_lt {c : Crossword} {a : Assignment}
    {v : Variable} {w : Word} (hv : v ∈ c.vars) (hk : hasKey a v = false) :
    unassignedCount c (insertA a v w) < unassignedCount c a := by
  unfold unassignedCount
  apply length_filter_lt_of_imp
    (fun u h => by
      cases hu : hasKey a u with
      | false => rfl
      | true =>
        exfalso
        rw [hasKey_insertA_fresh hk, hu] at h
        simp at h)
    hv
  · simp [hk]
  · rw [hasKey_insertA_fresh hk]
    simp

theorem keyLt_irrefl (p : Int × Int) : keyLt p p = false := by
  simp [keyLt]

theorem keyLt_trans {p q r : Int × Int} (h1 : keyLt p q = true)
    (h2 : keyLt q r = true) : keyLt p r = true := by
  obtain ⟨p1, p2⟩ := p
  obtain ⟨q1, q2⟩ := q
  obtain ⟨r1, r2⟩ := r
  simp only [keyLt, decide_eq_true_eq] at h1 h2 ⊢
  omega

theorem keyLt_of_not_lt {p q r : Int × Int} (h1 : keyLt q p = false)
    (h2 : keyLt q r = true) : keyLt p r = true := by
  obtain ⟨p1, p2⟩ := p
  obtain ⟨q1, q2⟩ := q
  obtain ⟨r1, r2⟩ := r
  simp only [keyLt, decide_eq_true_eq, decide_eq_false_iff_not] at h1 h2 ⊢
  push_neg at h1
  omega

theorem minByKey_mem (ke : Variable → Int × Int) (x : Variable)
    (xs : List Variable) : minByKey ke x xs ∈ x :: xs := by
  induction xs generalizing x with
  | nil => simp [minByKey]
  | cons y ys ih =>
    have heq : minByKey ke x (y :: ys) =
        minByKey ke (if keyLt (ke y) (ke x) = true then y else x) ys := by
      simp [minByKey]
    rw [heq]
    rcases List.mem_cons.mp (ih (if keyLt (ke y) (ke x) = true then y else x)) with h | h
    · rw [h]
      split <;> simp
    · simp [List.mem_cons, h]

theorem minByKey_min (ke : Variable → Int × Int) (x : Variable)
    (xs : List Variable) :
    ∀ u ∈ x :: xs, keyLt (ke u) (ke (minByKey ke x xs)) = false := by
  induction xs generalizing x with
  | nil =>
    intro u hu
    rw [List.mem_singleton] at hu
    subst hu
    simpa [minByKey] using keyLt_irrefl (ke u)
  | cons y ys ih =>
    intro u hu
    have heq : minByKey ke x (y :: ys) =
        minByKey ke (if keyLt (ke y) (ke x) = true then y else x) ys := by
      simp [minByKey]
    rw [heq]
    by_cases hxy : keyLt (ke y) (ke x) = true
    · rw [if_pos hxy]
      rcases List.mem_cons.mp hu with h1 | h2
      · subst h1
        cases hc : keyLt (ke u) (ke (minByKey ke y ys)) with
        | false => rfl
        | true =>
          exfalso
          have hy := ih y y (by simp)
          rw [keyLt_trans hxy hc] at hy
          exact Bool.false_ne_true hy.symm
      · exact ih y u h2
    · rw [if_neg hxy]
      have hfalse : keyLt (ke y) (ke x) = false := Bool.not_eq_true _ ▸ hxy
      rcases List.mem_cons.mp hu with h1 | h2
      · subst h1
        exact ih u u (by simp)
      · rcases List.mem_cons.mp h2 with h3 | h4
        · subst h3
          cases hc : keyLt (ke u) (ke (minByKey ke x ys)) with
          | false => rfl
          | true =>
            exfalso
            have hx := ih x x (by simp)
            rw [keyLt_of_not_lt hfalse hc] at hx
            exact Bool.false_ne_true hx.symm
        · exact ih x u (by simp [h4])

theorem select_eq_none_iff {c : Crossword} {d : Domains} {a : Assignment} :
    select_unassigned_variable c d a = none ↔ assignment_complete c a = true := by
  simp only [select_unassigned_variable]
  cases h : c.vars.filter (fun v => !(hasKey a v)) with
  | nil =>
    simp only [true_iff]
    rw [List.filter_eq_nil_iff] at h
    simp only [assignment_complete, List.all_eq_true]
    intro v hv
    have := h v hv
    simpa using this
  | cons x xs =>
    simp only [reduceCtorEq, false_iff]
    intro hc
    have hx : x ∈ c.vars.filter (fun v => !(hasKey a v)) := by
      rw [h]; simp
    rw [List.mem_filter] at hx
    simp only [assignment_complete, List.all_eq_true] at hc
    have := hc x hx.1
    rw [this] at hx
    simpa using hx.2

theorem select_eq_some {c : Crossword} {d : Domains} {a : Assignment}
    {v : Variable} (h : select_unassigned_variable c d a = some v) :
    v ∈ c.vars ∧ hasKey a v = false ∧
      ∀ u ∈ c.vars, hasKey a u = false →
        keyLt (selectKey c d u) (selectKey c d v) = false := by
  rw [select_unassigned_variable] at h
  cases hf : c.vars.filter (fun v => !(hasKey a v)) with
  | nil => rw [hf] at h; exact absurd h (by simp)
  | cons x xs =>
    rw [hf] at h
    simp only [Option.some.injEq] at h
    have hmem : v ∈ x :: xs := h ▸ minByKey_mem (selectKey c d) x xs
    rw [← hf] at hmem
    rw [List.mem_filter] at hmem
    refine ⟨hmem.1, by simpa using hmem.2, ?_⟩
    intro u hu hku
    have humem : u ∈ x :: xs := by
      rw [← hf, List.mem_filter]
      exact ⟨hu, by simp [hku]⟩
    have := minByKey_min (selectKey c d) x xs u humem
    rw [h] at this
    exact this

theorem revise_none_overlap {c : Crossword} {d : Domains} {x y : Variable}
    (h : c.overlaps x y = none) : revise c d x y = (false, d) := by
  simp [revise, h]

theorem revise_snd_apply_ne {c : Crossword} {d : Domains} {x y v : Variable}
    (hv : v ≠ x) : (revise c d x y).2 v = d v := by
  unfold revise
  cases h : c.overlaps x y with
  | none => rfl
  | some p =>
    obtain ⟨i, j⟩ := p
    simp [hv]

theorem mem_toRemove {d : Domains} {x y : Variable} {i j : Nat} {w : Word} :
    w ∈ (d x).filter (fun wx => !((d y).any (fun wy => decide (wx[i]? = wy[j]?)))) ↔
      w ∈ d x ∧ ∀ w2 ∈ d y, ¬ (w[i]? = w2[j]?) := by
  rw [List.mem_filter, Bool.not_eq_true', List.any_eq_false]
  simp

theorem revise_snd_apply_self {c : Crossword} {d : Domains} {x y : Variable}
    {i j : Nat} (h : c.overlaps x y = some (i, j)) :
    (revise c d x y).2 x =
      (d x).filter (fun w => decide (w ∉
        (d x).filter (fun wx => !((d y).any (fun wy => decide (wx[i]? = wy[j]?)))))) := by
  simp [revise, h]

theorem revise_fst_eq {c : Crossword} {d : Domains} {x y : Variable}
    {i j : Nat} (h : c.overlaps x y = some (i, j)) :
    (revise c d x y).1 =
      !((d x).filter (fun wx => !((d y).any (fun wy =>
        decide (wx[i]? = wy[j]?))))).isEmpty := by
  simp [revise, h]

theorem mem_revise_self {c : Crossword} {d : Domains} {x y : Variable}
    {i j : Nat} (h : c.overlaps x y = some (i, j)) {w : Word} :
    w ∈ (revise c d x y).2 x ↔ w ∈ d x ∧ ∃ w2 ∈ d y, w[i]? = w2[j]? := by
  rw [revise_snd_apply_self h, List.mem_filter]
  constructor
  · rintro ⟨hw, hnr⟩
    rw [decide_eq_true_eq] at hnr
    refine ⟨hw, ?_⟩
    by_contra hns
    push_neg at hns
    exact hnr (mem_toRemove.mpr ⟨hw, hns⟩)
  · rintro ⟨hw, w2, hw2, he⟩
    refine ⟨hw, ?_⟩
    rw [decide_eq_true_eq]
    intro hmem
    exact (mem_toRemove.mp hmem).2 w2 hw2 he

theorem revise_fst_iff {c : Crossword} {d : Domains} {x y : Variable}
    {i j : Nat} (h : c.overlaps x y = some (i, j)) :
    (revise c d x y).1 = true ↔
      ∃ w ∈ d x, ∀ w2 ∈ d y, ¬ (w[i]? = w2[j]?) := by
  rw [revise_fst_eq h, Bool.not_eq_true', List.isEmpty_eq_false_iff_exists_mem]
  constructor
  · rintro ⟨w, hw⟩
    obtain ⟨hw1, hw2⟩ := mem_toRemove.mp hw
    exact ⟨w, hw1, hw2⟩
  · rintro ⟨w, hw, hns⟩
    exact ⟨w, mem_toRemove.mpr ⟨hw, hns⟩⟩

theorem revise_subset {c : Crossword} {d : Domains} {x y v : Variable} :
    (revise c d x y).2 v ⊆ d v := by
  cases h : c.overlaps x y with
  | none => rw [revise_none_overlap h]; exact fun w hw => hw
  | some p =>
    obtain ⟨i, j⟩ := p
    by_cases hv : v = x
    · subst hv
      rw [revise_snd_apply_self h]
      exact List.filter_subset' _
    · rw [revise_snd_apply_ne hv]
      exact fun w hw => hw

theorem revise_true_length {c : Crossword} {d : Domains} {x y : Variable}
    (h : (revise c d x y).1 = true) :
    ((revise c d x y).2 x).length < (d x).length := by
  cases ho : c.overlaps x y with
  | none => rw [revise_none_overlap ho] at h; exact absurd h (by simp)
  | some p =>
    obtain ⟨i, j⟩ := p
    obtain ⟨w0, hw0, hns⟩ := (revise_fst_iff ho).mp h
    rw [revise_snd_apply_self ho, List.length_filter_lt_length_iff_exists]
    refine ⟨w0, hw0, ?_⟩
    simp only [decide_eq_true_eq, not_not]
    exact mem_toRemove.mpr ⟨hw0, hns⟩

theorem mem_neighbors {c : Crossword} {x z : Variable} :
    z ∈ neighbors c x ↔ z ∈ c.vars ∧ z ≠ x ∧ (c.overlaps x z).isSome = true := by
  simp [neighbors, List.mem_filter, and_assoc]

theorem ac3go_cons (c : Crossword) (fuel : Nat) (x y : Variable)
    (t : List (Variable × Variable)) (d : Domains) :
    ac3go c (fuel + 1) ((x, y) :: t) d =
      if (revise c d x y).1 then
        if ((revise c d x y).2 x).isEmpty then
          (false, (revise c d x y).2)
        else
          ac3go c fuel
            (t ++ ((neighbors c x).filter (fun z => decide (z ≠ y))).map (fun z => (z, x)))
            ((revise c d x y).2)
      else
        ac3go c fuel t d := rfl

theorem ac3go_subset (c : Crossword) :
    ∀ (fuel : Nat) (q : List (Variable × Variable)) (d : Domains) (v : Variable),
      (ac3go c fuel q d).2 v ⊆ d v := by
  intro fuel
  induction fuel with
  | zero => intro q d v; exact fun w hw => hw
  | succ fuel ih =>
    intro q d v
    cases q with
    | nil => exact fun w hw => hw
    | cons p t =>
      obtain ⟨x, y⟩ := p
      rw [ac3go_cons]
      by_cases hr : (revise c d x y).1 = true
      · rw [if_pos hr]
        by_cases he : ((revise c d x y).2 x).isEmpty = true
        · rw [if_pos he]
          exact revise_subset
        · rw [if_neg he]
          exact fun w hw => revise_subset (ih _ _ v hw)
      · rw [if_neg hr]
        exact ih t d v

theorem ac3go_false_empty (c : Crossword) :
    ∀ (fuel : Nat) (q : List (Variable × Variable)) (d : Domains),
      (∀ p ∈ q, p.1 ∈ c.vars) → (ac3go c fuel q d).1 = false →
      ∃ v ∈ c.vars, (ac3go c fuel q d).2 v = [] := by
  intro fuel
  induction fuel with
  | zero => intro q d _ hf; exact absurd hf (by simp [ac3go])
  | succ fuel ih =>
    intro q d hq hf
    cases q with
    | nil => exact absurd hf (by simp [ac3go])
    | cons p t =>
      obtain ⟨x, y⟩ := p
      rw [ac3go_cons] at hf ⊢
      by_cases hr : (revise c d x y).1 = true
      · rw [if_pos hr] at hf ⊢
        by_cases he : ((revise c d x y).2 x).isEmpty = true
        · rw [if_pos he] at hf ⊢
          exact ⟨x, hq (x, y) (by simp), List.isEmpty_iff.mp he⟩
        · rw [if_neg he] at hf ⊢
          apply ih _ _ _ hf
          intro p hp
          rcases List.mem_append.mp hp with h1 | h2
          · exact hq p (List.mem_cons_of_mem _ h1)
          · obtain ⟨z, hz, rfl⟩ := List.mem_map.mp h2
            exact (mem_neighbors.mp (List.mem_filter.mp hz).1).1
      · rw [if_neg hr] at hf ⊢
        exact ih t d (fun p hp => hq p (List.mem_cons_of_mem _ hp)) hf

theorem sourceSet_pop_subset {c : Crossword} {x y : Variable}
    {t : List (Variable × Variable)} :
    (c.vars ++ t.map Prod.fst).toFinset ⊆
      (c.vars ++ ((x, y) :: t).map Prod.fst).toFinset := by
  intro a
  simp only [List.mem_toFinset, List.mem_append, List.map_cons, List.mem_cons]
  tauto

theorem sourceSet_step_subset {c : Crossword} {x y : Variable}
    {t : List (Variable × Variable)} :
    (c.vars ++ (t ++ ((neighbors c x).filter (fun z => decide (z ≠ y))).map
        (fun z => (z, x))).map Prod.fst).toFinset ⊆
      (c.vars ++ ((x, y) :: t).map Prod.fst).toFinset := by
  intro a
  simp only [List.mem_toFinset, List.mem_append, List.map_cons, List.mem_cons,
    List.map_append, List.map_map]
  rintro (h | h | h)
  · exact Or.inl h
  · exact Or.inr (Or.inr h)
  · rw [List.mem_map] at h
    obtain ⟨z, hz, hze⟩ := h
    have hzv := (mem_neighbors.mp (List.mem_filter.mp hz).1).1
    simp only [Function.comp] at hze
    exact Or.inl (hze ▸ hzv)

theorem domainsMeasure_pop_le {c : Crossword} {x y : Variable}
    {t : List (Variable × Variable)} {d : Domains} :
    domainsMeasure c t d ≤ domainsMeasure c ((x, y) :: t) d :=
  Finset.sum_le_sum_of_subset sourceSet_pop_subset

theorem domainsMeasure_step_lt {c : Crossword} {x y : Variable}
    {t : List (Variable × Variable)} {d : Domains}
    (hr : (revise c d x y).1 = true) :
    domainsMeasure c
        (t ++ ((neighbors c x).filter (fun z => decide (z ≠ y))).map (fun z => (z, x)))
        ((revise c d x y).2) <
      domainsMeasure c ((x, y) :: t) d := by
  apply lt_of_le_of_lt (Finset.sum_le_sum_of_subset sourceSet_step_subset)
  apply Finset.sum_lt_sum
  · intro v _
    by_cases hv : v = x
    · subst hv
      exact le_of_lt (revise_true_length hr)
    · rw [revise_snd_apply_ne hv]
  · refine ⟨x, ?_, revise_true_length hr⟩
    simp [List.mem_toFinset]

theorem ac3_none_eq (c : Crossword) (d : Domains) :
    ac3 c none d =
      ac3go c (ac3Measure c (defaultArcs c) d + 1) (defaultArcs c) d := rfl

theorem revise_keep {c : Crossword} {f : Variable → Word} {d : Domains}
    {x0 y0 : Variable}
    (hf : ∀ u v, u ∈ c.vars → v ∈ c.vars → u ≠ v →
      ∀ i j, c.overlaps u v = some (i, j) → (f u)[i]? = (f v)[j]?)
    (hx0 : x0 ∈ c.vars) (hy0 : y0 ∈ c.vars) (hne : x0 ≠ y0)
    (hin : ∀ v ∈ c.vars, f v ∈ d v) :
    ∀ v ∈ c.vars, f v ∈ (revise c d x0 y0).2 v := by
  intro v hv
  by_cases hvx : v = x0
  · subst hvx
    cases hov : c.overlaps v y0 with
    | none => rw [revise_none_overlap hov]; exact hin v hv
    | some p =>
      obtain ⟨i, j⟩ := p
      rw [mem_revise_self hov]
      exact ⟨hin v hv, f y0, hin y0 hy0, hf v y0 hv hy0 hne i j hov⟩
  · rw [revise_snd_apply_ne hvx]
    exact hin v hv

theorem inv_step {c : Crossword} (hsym : SymmOverlaps c) {d : Domains}
    {x0 y0 : Variable} {t : List (Variable × Variable)}
    (hxy0 : x0 ≠ y0)
    (hinv : ∀ x y, x ∈ c.vars → y ∈ c.vars → x ≠ y →
      (c.overlaps x y).isSome = true →
      (x, y) ∈ (x0, y0) :: t ∨ arcConsistent c d x y) :
    ∀ x y, x ∈ c.vars → y ∈ c.vars → x ≠ y →
      (c.overlaps x y).isSome = true →
      (x, y) ∈ (t ++ ((neighbors c x0).filter (fun z => decide (z ≠ y0))).map
          (fun z => (z, x0))) ∨
        arcConsistent c (revise c d x0 y0).2 x y := by
  intro x y hx hy hxy hov
  rcases hinv x y hx hy hxy hov with hmem | hcons
  · rcases List.mem_cons.mp hmem with heq | hmem2
    · right
      rw [Prod.mk.injEq] at heq
      obtain ⟨h1, h2⟩ := heq
      subst h1
      subst h2
      intro i j hov2 w hw
      obtain ⟨-, w2, hw2, he⟩ := (mem_revise_self hov2).mp hw
      refine ⟨w2, ?_, he⟩
      rw [revise_snd_apply_ne (Ne.symm hxy)]
      exact hw2
    · exact Or.inl (List.mem_append_left _ hmem2)
  · by_cases hxx0 : x = x0
    · subst hxx0
      right
      intro i j hov2 w hw
      obtain ⟨w2, hw2, he⟩ := hcons i j hov2 w (revise_subset hw)
      refine ⟨w2, ?_, he⟩
      rw [revise_snd_apply_ne (Ne.symm hxy)]
      exact hw2
    · by_cases hyx0 : y = x0
      · subst hyx0
        by_cases hxy0' : x = y0
        · subst hxy0'
          right
          intro i2 j2 hov2 w hw
          rw [revise_snd_apply_ne (Ne.symm hxy0)] at hw
          obtain ⟨w2, hw2, he⟩ := hcons i2 j2 hov2 w hw
          have hov0 : c.overlaps y x = some (j2, i2) := hsym x y i2 j2 hov2
          refine ⟨w2, ?_, he⟩
          rw [mem_revise_self hov0]
          exact ⟨hw2, w, hw, he.symm⟩
        · left
          apply List.mem_append_right
          rw [List.mem_map]
          refine ⟨x, ?_, rfl⟩
          rw [List.mem_filter]
          refine ⟨?_, by simp [hxy0']⟩
          rw [mem_neighbors]
          obtain ⟨⟨i, j⟩, hov'⟩ := Option.isSome_iff_exists.mp hov
          refine ⟨hx, hxx0, ?_⟩
          rw [hsym x y i j hov']
          rfl
      · right
        intro i j hov2 w hw
        rw [revise_snd_apply_ne hxx0] at hw
        obtain ⟨w2, hw2, he⟩ := hcons i j hov2 w hw
        refine ⟨w2, ?_, he⟩
        rw [revise_snd_apply_ne hyx0]
        exact hw2

theorem ac3Measure_pop_lt {c : Crossword} {x y : Variable}
    {t : List (Variable × Variable)} {d : Domains} :
    ac3Measure c t d < ac3Measure c ((x, y) :: t) d := by
  unfold ac3Measure
  have h1 : (c.vars.length + 1) * domainsMeasure c t d ≤
      (c.vars.length + 1) * domainsMeasure c ((x, y) :: t) d :=
    Nat.mul_le_mul_left _ domainsMeasure_pop_le
  simp only [List.length_cons]
  omega

theorem ac3Measure_step_lt {c : Crossword} {x y : Variable}
    {t : List (Variable × Variable)} {d : Domains}
    (hr : (revise c d x y).1 = true) :
    ac3Measure c
        (t ++ ((neighbors c x).filter (fun z => decide (z ≠ y))).map (fun z => (z, x)))
        ((revise c d x y).2) <
      ac3Measure c ((x, y) :: t) d := by
  unfold ac3Measure
  have h1 : domainsMeasure c
      (t ++ ((neighbors c x).filter (fun z => decide (z ≠ y))).map (fun z => (z, x)))
      ((revise c d x y).2) + 1 ≤ domainsMeasure c ((x, y) :: t) d :=
    domainsMeasure_step_lt hr
  have h2 : (((neighbors c x).filter (fun z => decide (z ≠ y))).map
      (fun z => (z, x))).length ≤ c.vars.length := by
    rw [List.length_map]
    exact le_trans (List.length_filter_le _ _)
      (le_trans (List.length_filter_le _ _) (le_refl _))
  have h3 : (c.vars.length + 1) *
      (domainsMeasure c
        (t ++ ((neighbors c x).filter (fun z => decide (z ≠ y))).map (fun z => (z, x)))
        ((revise c d x y).2) + 1) ≤
      (c.vars.length + 1) * domainsMeasure c ((x, y) :: t) d :=
    Nat.mul_le_mul_left _ h1
  simp only [List.length_append, List.length_cons]
  nlinarith

theorem ac3go_sound (c : Crossword) (hsym : SymmOverlaps c) :
    ∀ (fuel : Nat) (q : List (Variable × Variable)) (d : Domains),
      ac3Measure c q d < fuel →
      (∀ p ∈ q, p.1 ≠ p.2) →
      (∀ x y, x ∈ c.vars → y ∈ c.vars → x ≠ y →
        (c.overlaps x y).isSome = true →
        (x, y) ∈ q ∨ arcConsistent c d x y) →
      (ac3go c fuel q d).1 = true →
      ∀ x y, x ∈ c.vars → y ∈ c.vars → x ≠ y →
        arcConsistent c (ac3go c fuel q d).2 x y := by
  intro fuel
  induction fuel with
  | zero => intro q d hm; exact absurd hm (Nat.not_lt_zero _)
  | succ fuel ih =>
    intro q d hm hq hinv hres
    cases q with
    | nil =>
      intro x y hx hy hxy
      intro i j hov w hw
      have hiss : (c.overlaps x y).isSome = true := by rw [hov]; rfl
      rcases hinv x y hx hy hxy hiss with hmem | hcons
      · exact absurd hmem (List.not_mem_nil _)
      · exact hcons i j hov w hw
    | cons p t =>
      obtain ⟨x0, y0⟩ := p
      rw [ac3go_cons] at hres ⊢
      have hxy0 : x0 ≠ y0 := hq (x0, y0) (by simp)
      by_cases hr : (revise c d x0 y0).1 = true
      · rw [if_pos hr] at hres ⊢
        by_cases he : ((revise c d x0 y0).2 x0).isEmpty = true
        · rw [if_pos he] at hres
          exact absurd hres (by simp)
        · rw [if_neg he] at hres ⊢
          apply ih _ _ ?_ ?_ ?_ hres
          · have hdec := @ac3Measure_step_lt c x0 y0 t d hr
            omega
          · intro p hp
            rcases List.mem_append.mp hp with h1 | h2
            · exact hq p (List.mem_cons_of_mem _ h1)
            · obtain ⟨z, hz, rfl⟩ := List.mem_map.mp h2
              exact (mem_neighbors.mp (List.mem_filter.mp hz).1).2.1
          · exact inv_step hsym hxy0 hinv
      · rw [if_neg hr] at hres ⊢
        apply ih t d ?_ ?_ ?_ hres
        · have hdec := @ac3Measure_pop_lt c x0 y0 t d
          omega
        · exact fun p hp => hq p (List.mem_cons_of_mem _ hp)
        · intro x y hx hy hxy hiss
          rcases hinv x y hx hy hxy hiss with hmem | hcons
          · rcases List.mem_cons.mp hmem with heq | hmem2
            · right
              rw [Prod.mk.injEq] at heq
              obtain ⟨h1, h2⟩ := heq
              subst h1
              subst h2
              intro i j hov w hw
              have hiff := (@revise_fst_iff c d x y i j hov).not.mp hr
              push_neg at hiff
              exact hiff w hw
            · exact Or.inl hmem2
          · exact Or.inr hcons

theorem ac3go_keep (c : Crossword) (f : Variable → Word)
    (hf : ∀ u v, u ∈ c.vars → v ∈ c.vars → u ≠ v →
      ∀ i j, c.overlaps u v = some (i, j) → (f u)[i]? = (f v)[j]?) :
    ∀ (fuel : Nat) (q : List (Variable × Variable)) (d : Domains),
      (∀ p ∈ q, p.1 ∈ c.vars ∧ p.2 ∈ c.vars ∧ p.1 ≠ p.2) →
      (∀ v ∈ c.vars, f v ∈ d v) →
      ∀ v ∈ c.vars, f v ∈ (ac3go c fuel q d).2 v := by
  intro fuel
  induction fuel with
  | zero => intro q d _ hin; exact hin
  | succ fuel ih =>
    intro q d hq hin
    cases q with
    | nil => exact hin
    | cons p t =>
      obtain ⟨x0, y0⟩ := p
      rw [ac3go_cons]
      obtain ⟨hx0, hy0, hne0⟩ := hq (x0, y0) (by simp)
      have hkeep : ∀ v ∈ c.vars, f v ∈ (revise c d x0 y0).2 v :=
        revise_keep hf hx0 hy0 hne0 hin
      by_cases hr : (revise c d x0 y0).1 = true
      · rw [if_pos hr]
        by_cases he : ((revise c d x0 y0).2 x0).isEmpty = true
        · rw [if_pos he]
          exact hkeep
        · rw [if_neg he]
          apply ih _ _ ?_ hkeep
          intro p hp
          rcases List.mem_append.mp hp with h1 | h2
          · exact hq p (List.mem_cons_of_mem _ h1)
          · obtain ⟨z, hz, rfl⟩ := List.mem_map.mp h2
            have hzn := mem_neighbors.mp (List.mem_filter.mp hz).1
            exact ⟨hzn.1, hx0, hzn.2.1⟩
      · rw [if_neg hr]
        exact ih t d (fun p hp => hq p (List.mem_cons_of_mem _ hp)) hin

theorem mem_defaultArcs {c : Crossword} {x y : Variable} :
    (x, y) ∈ defaultArcs c ↔ x ∈ c.vars ∧ y ∈ neighbors c x := by
  simp only [defaultArcs, List.mem_flatMap, List.mem_map]
  constructor
  · rintro ⟨u, hu, z, hz, heq⟩
    rw [Prod.mk.injEq] at heq
    obtain ⟨h1, h2⟩ := heq
    subst h1
    subst h2
    exact ⟨hu, hz⟩
  · rintro ⟨hx, hy⟩
    exact ⟨x, hx, y, hy, rfl⟩

theorem defaultArcs_distinct {c : Crossword} :
    ∀ p ∈ defaultArcs c, p.1 ≠ p.2 := by
  rintro ⟨x, y⟩ hp
  have hn := mem_neighbors.mp (mem_defaultArcs.mp hp).2
  exact Ne.symm hn.2.1

theorem defaultArcs_in_vars {c : Crossword} :
    ∀ p ∈ defaultArcs c, p.1 ∈ c.vars ∧ p.2 ∈ c.vars ∧ p.1 ≠ p.2 := by
  rintro ⟨x, y⟩ hp
  obtain ⟨hx, hy⟩ := mem_defaultArcs.mp hp
  have hn := mem_neighbors.mp hy
  exact ⟨hx, hn.1, Ne.symm hn.2.1⟩

theorem mem_pairList {a : Assignment} {pq : (Variable × Word) × (Variable × Word)} :
    pq ∈ pairList a ↔ pq.1 ∈ a ∧ pq.2 ∈ a := by
  obtain ⟨p, q⟩ := pq
  simp only [pairList, List.mem_flatMap, List.mem_map]
  constructor
  · rintro ⟨p1, hp1, q1, hq1, heq⟩
    rw [Prod.mk.injEq] at heq
    obtain ⟨h1, h2⟩ := heq
    subst h1
    subst h2
    exact ⟨hp1, hq1⟩
  · rintro ⟨hp, hq⟩
    exact ⟨p, hp, q, hq, rfl⟩

theorem pairOk_true_iff {c : Crossword} {p q : Variable × Word} :
    pairOk c p q = true ↔
      (p.1 ≠ q.1 → ∀ i j, c.overlaps p.1 q.1 = some (i, j) → p.2[i]? = q.2[j]?) := by
  unfold pairOk
  by_cases hpq : p.1 = q.1
  · simp [hpq]
  · rw [if_neg hpq]
    cases hov : c.overlaps p.1 q.1 with
    | none => simp [hov]
    | some r =>
      obtain ⟨i, j⟩ := r
      simp only [decide_eq_true_eq]
      constructor
      · intro he _ i2 j2 hov2
        injection hov2 with hr
        rw [Prod.mk.injEq] at hr
        obtain ⟨h1, h2⟩ := hr
        subst h1
        subst h2
        exact he
      · intro hh
        exact hh hpq i j rfl

theorem distinctOk_iff {a : Assignment} :
    distinctOk a = true ↔ (a.map Prod.snd).Nodup := by
  rw [distinctOk, decide_eq_true_eq]
  rw [show a.length = (a.map Prod.snd).length from (List.length_map a Prod.snd).symm]
  exact dedup_length_eq_iff

theorem consistent_iff {c : Crossword} {a : Assignment} :
    consistent c a = true ↔
      (a.map Prod.snd).Nodup ∧
      (∀ p ∈ a, p.2.length = p.1.length) ∧
      (∀ p ∈ a, ∀ q ∈ a, p.1 ≠ q.1 →
        ∀ i j, c.overlaps p.1 q.1 = some (i, j) → p.2[i]? = q.2[j]?) := by
  unfold consistent
  rw [Bool.and_eq_true, Bool.and_eq_true, distinctOk_iff]
  constructor
  · rintro ⟨⟨h1, h2⟩, h3⟩
    refine ⟨h1, ?_, ?_⟩
    · rw [lengthsOk, List.all_eq_true] at h2
      intro p hp
      exact decide_eq_true_eq.mp (h2 p hp)
    · rw [List.all_eq_true] at h3
      intro p hp q hq
      exact pairOk_true_iff.mp (h3 (p, q) (mem_pairList.mpr ⟨hp, hq⟩))
  · rintro ⟨h1, h2, h3⟩
    refine ⟨⟨h1, ?_⟩, ?_⟩
    · rw [lengthsOk, List.all_eq_true]
      intro p hp
      exact decide_eq_true_eq.mpr (h2 p hp)
    · rw [List.all_eq_true]
      intro pq hpq
      obtain ⟨hp, hq⟩ := mem_pairList.mp hpq
      exact pairOk_true_iff.mpr (h3 pq.1 hp pq.2 hq)

theorem consistent_nil (c : Crossword) : consistent c [] = true := rfl

theorem insertSorted_perm (ke : Word → Nat) (x : Word) (l : List Word) :
    (insertSorted ke x l).Perm (x :: l) := by
  induction l with
  | nil => exact List.Perm.refl _
  | cons y ys ih =>
    rw [insertSorted]
    split
    · exact List.Perm.refl _
    · exact (List.Perm.cons y ih).trans (List.Perm.swap x y ys)

theorem sortByKey_perm (ke : Word → Nat) (l : List Word) :
    (sortByKey ke l).Perm l := by
  induction l with
  | nil => exact List.Perm.refl _
  | cons x xs ih =>
    rw [sortByKey]
    exact (insertSorted_perm ke x (sortByKey ke xs)).trans (List.Perm.cons x ih)

theorem mem_order_domain_values {c : Crossword} {d : Domains} {v : Variable}
    {a : Assignment} {w : Word} :
    w ∈ order_domain_values c d v a ↔ w ∈ d v :=
  (sortByKey_perm (ruledOutCount c d v a) (d v)).mem_iff

theorem backtrackGo_succ (c : Crossword) (d : Domains) (fuel : Nat) (a : Assignment) :
    backtrackGo c d (fuel + 1) a =
      if assignment_complete c a then
        some a
      else
        match select_unassigned_variable c d a with
        | none => none
        | some v =>
          (order_domain_values c d v a).findSome? (fun w =>
            if consistent c (insertA a v w) then
              backtrackGo c d fuel (insertA a v w)
            else
              none) := rfl

theorem backtrackGo_sound (c : Crossword) (d : Domains) :
    ∀ (fuel : Nat) (a : Assignment) (r : Assignment),
      consistent c a = true → backtrackGo c d fuel a = some r →
      assignment_complete c r = true ∧ consistent c r = true := by
  intro fuel
  induction fuel with
  | zero => intro a r _ hres; exact absurd hres (by simp [backtrackGo])
  | succ fuel ih =>
    intro a r hcons hres
    rw [backtrackGo_succ] at hres
    by_cases hcomp : assignment_complete c a = true
    · rw [if_pos hcomp] at hres
      injection hres with hres
      subst hres
      exact ⟨hcomp, hcons⟩
    · rw [if_neg hcomp] at hres
      cases hsel : select_unassigned_variable c d a with
      | none => rw [hsel] at hres; exact absurd hres (by simp)
      | some v =>
        rw [hsel] at hres
        obtain ⟨w, hwmem, hfw⟩ := List.exists_of_findSome?_eq_some hres
        by_cases hc1 : consistent c (insertA a v w) = true
        · rw [if_pos hc1] at hfw
          exact ih _ _ hc1 hfw
        · rw [if_neg hc1] at hfw
          exact absurd hfw (by simp)

theorem consistent_of_subsolution {c : Crossword} {a : Assignment}
    {f : Variable → Word}
    (hnodup : (keysA a).Nodup)
    (hsub : ∀ p ∈ a, p.1 ∈ c.vars ∧ p.2 = f p.1)
    (hlen : ∀ v ∈ c.vars, (f v).length = v.length)
    (hdist : ∀ u v, u ∈ c.vars → v ∈ c.vars → u ≠ v → f u ≠ f v)
    (hov : ∀ u v, u ∈ c.vars → v ∈ c.vars → u ≠ v →
      ∀ i j, c.overlaps u v = some (i, j) → (f u)[i]? = (f v)[j]?) :
    consistent c a = true := by
  rw [consistent_iff]
  refine ⟨?_, ?_, ?_⟩
  · have hmap : a.map Prod.snd = (keysA a).map f := by
      rw [keysA, List.map_map]
      exact List.map_congr_left (fun p hp => (hsub p hp).2)
    rw [hmap]
    apply List.Nodup.map_on ?_ hnodup
    intro x hx y hy hfe
    by_contra hne
    have hxv : x ∈ c.vars := by
      obtain ⟨p, hp, rfl⟩ := List.mem_map.mp hx
      exact (hsub p hp).1
    have hyv : y ∈ c.vars := by
      obtain ⟨p, hp, rfl⟩ := List.mem_map.mp hy
      exact (hsub p hp).1
    exact hdist x y hxv hyv hne hfe
  · intro p hp
    rw [(hsub p hp).2]
    exact hlen p.1 (hsub p hp).1
  · intro p hp q hq hne i j hovq
    rw [(hsub p hp).2, (hsub q hq).2]
    exact hov p.1 q.1 (hsub p hp).1 (hsub q hq).1 hne i j hovq

theorem backtrackGo_complete (c : Crossword) (d : Domains) (f : Variable → Word)
    (hlen : ∀ v ∈ c.vars, (f v).length = v.length)
    (hdist : ∀ u v, u ∈ c.vars → v ∈ c.vars → u ≠ v → f u ≠ f v)
    (hov : ∀ u v, u ∈ c.vars → v ∈ c.vars → u ≠ v →
      ∀ i j, c.overlaps u v = some (i, j) → (f u)[i]? = (f v)[j]?)
    (hdom : ∀ v ∈ c.vars, f v ∈ d v) :
    ∀ (fuel : Nat) (a : Assignment),
      unassignedCount c a < fuel →
      (keysA a).Nodup →
      (∀ p ∈ a, p.1 ∈ c.vars ∧ p.2 = f p.1) →
      backtrackGo c d fuel a ≠ none := by
  intro fuel
  induction fuel with
  | zero => intro a hm; exact absurd hm (Nat.not_lt_zero _)
  | succ fuel ih =>
    intro a hm hnd hsubs
    rw [backtrackGo_succ]
    by_cases hcomp : assignment_complete c a = true
    · simp [hcomp]
    · rw [if_neg hcomp]
      cases hsel : select_unassigned_variable c d a with
      | none => exact absurd (select_eq_none_iff.mp hsel) hcomp
      | some v =>
        obtain ⟨hv, hkv, -⟩ := select_eq_some hsel
        intro hcontra
        rw [List.findSome?_eq_none_iff] at hcontra
        have hfvmem : f v ∈ order_domain_values c d v a :=
          mem_order_domain_values.mpr (hdom v hv)
        have hinst := hcontra (f v) hfvmem
        have hins : insertA a v (f v) = a ++ [(v, f v)] := insertA_of_not_hasKey hkv
        have hnd1 : (keysA (insertA a v (f v))).Nodup := by
          rw [hins, keysA, List.map_append, List.nodup_append]
          refine ⟨hnd, by simp, ?_⟩
          intro u hu hu2
          simp only [List.map_cons, List.map_nil, List.mem_singleton] at hu2
          rw [hu2] at hu
          have hh : hasKey a v = true := hasKey_iff.mpr hu
          rw [hkv] at hh
          exact absurd hh (by simp)
        have hsubs1 : ∀ p ∈ insertA a v (f v), p.1 ∈ c.vars ∧ p.2 = f p.1 := by
          rw [hins]
          intro p hp
          rcases mem_append_single.mp hp with h1 | h1
          · exact hsubs p h1
          · subst h1
            exact ⟨hv, rfl⟩
        have hcons1 : consistent c (insertA a v (f v)) = true :=
          consistent_of_subsolution hnd1 hsubs1 hlen hdist hov
        rw [if_pos hcons1] at hinst
        have hlt : unassignedCount c (insertA a v (f v)) < fuel := by
          have := @unassignedCount_insert_lt c a v (f v) hv hkv
          omega
        exact ih (insertA a v (f v)) hlt hnd1 hsubs1 hinst

theorem backtrackGo_none_of_empty (c : Crossword) (d : Domains) (v0 : Variable)
    (hv0 : v0 ∈ c.vars) (hd0 : d v0 = []) :
    ∀ (fuel : Nat) (a : Assignment),
      hasKey a v0 = false → backtrackGo c d fuel a = none := by
  intro fuel
  induction fuel with
  | zero => intro a _; rfl
  | succ fuel ih =>
    intro a hk
    rw [backtrackGo_succ]
    by_cases hcomp : assignment_complete c a = true
    · exfalso
      rw [assignment_complete, List.all_eq_true] at hcomp
      rw [hcomp v0 hv0] at hk
      exact absurd hk (by simp)
    · rw [if_neg hcomp]
      cases hsel : select_unassigned_variable c d a with
      | none => rfl
      | some v =>
        obtain ⟨-, hkv, -⟩ := select_eq_some hsel
        rw [List.findSome?_eq_none_iff]
        intro w hw
        by_cases hvv : v = v0
        · exfalso
          subst hvv
          rw [mem_order_domain_values, hd0] at hw
          exact List.not_mem_nil w hw
        · have hk1 : hasKey (insertA a v w) v0 = false := by
            rw [hasKey_insertA_fresh hkv, hk]
            simp [hvv]
          split
          · exact ih (insertA a v w) hk1
          · rfl

theorem solve_eq (c : Crossword) :
    solve c = backtrackGo c
      ((ac3 c none (enforce_node_consistency (initialDomains c))).2)
      (unassignedCount c [] + 1) [] := rfl

theorem ac3_some_eq (c : Crossword) (l : List (Variable × Variable)) (d : Domains) :
    ac3 c (some l) d = ac3go c (ac3Measure c l d + 1) l d := rfl

theorem keyLt_trichotomy (p q : Int × Int) :
    keyLt p q = true ∨ keyLt q p = true ∨ p = q := by
  obtain ⟨p1, p2⟩ := p
  obtain ⟨q1, q2⟩ := q
  simp only [keyLt, decide_eq_true_eq, Prod.mk.injEq]
  omega

theorem pairOkChecked_eq {c : Crossword} (hb : OverlapBounds c)
    {p q : Variable × Word} (hp : p.2.length = p.1.length)
    (hq2 : q.2.length = q.1.length) :
    pairOkChecked c p q = some (pairOk c p q) := by
  unfold pairOkChecked pairOk
  by_cases hpq : p.1 = q.1
  · simp [hpq]
  · rw [if_neg hpq, if_neg hpq]
    cases hov : c.overlaps p.1 q.1 with
    | none => rfl
    | some r =>
      obtain ⟨i, j⟩ := r
      obtain ⟨hi, hj⟩ := hb p.1 q.1 i j hov
      have hi2 : i < p.2.length := by rw [hp]; exact hi
      have hj2 : j < q.2.length := by rw [hq2]; exact hj
      dsimp only
      rw [List.getElem?_eq_getElem hi2, List.getElem?_eq_getElem hj2]
      simp

theorem pairsChecked_eq {c : Crossword}
    {l : List ((Variable × Word) × (Variable × Word))}
    (h : ∀ pq ∈ l, pairOkChecked c pq.1 pq.2 = some (pairOk c pq.1 pq.2)) :
    pairsChecked c l = some (l.all (fun pq => pairOk c pq.1 pq.2)) := by
  induction l with
  | nil => rfl
  | cons pq rest ih =>
    rw [pairsChecked, h pq (by simp)]
    cases hpo : pairOk c pq.1 pq.2 with
    | false => simp [List.all_cons, hpo]
    | true =>
      rw [List.all_cons, hpo, Bool.true_and]
      exact ih (fun pq2 h2 => h pq2 (List.mem_cons_of_mem _ h2))

theorem consistentChecked_eq {c : Crossword} (hb : OverlapBounds c)
    (a : Assignment) : consistentChecked c a = some (consistent c a) := by
  unfold consistentChecked consistent
  cases hd : distinctOk a with
  | false => simp [hd]
  | true =>
    cases hl : lengthsOk a with
    | false => simp [hd, hl]
    | true =>
      simp only [hd, hl, Bool.not_true, Bool.false_eq_true, if_neg, if_false,
        Bool.true_and]
      rw [pairsChecked_eq]
      intro pq hpq
      obtain ⟨hp, hq⟩ := mem_pairList.mp hpq
      rw [lengthsOk, List.all_eq_true] at hl
      exact pairOkChecked_eq hb (decide_eq_true_eq.mp (hl pq.1 hp))
        (decide_eq_true_eq.mp (hl pq.2 hq))

theorem run_restore (c : Crossword) (d : Domains) :
    ∀ (mode : Option (Variable × List Word)) (a : Assignment)
      (res : Option Assignment) (afin : Assignment),
      Run c d mode a res afin → res = none →
      (match mode with
       | none => afin = a
       | some (v, _) => hasKey a v = false → afin = a) := by
  intro mode a res afin h
  induction h with
  | complete a h => intro hres; exact absurd hres (by simp)
  | enter a v res afin hc hs hr ih =>
    intro hres
    exact ih hres (select_eq_some hs).2.1
  | loopEnd v a => intro _ _; rfl
  | loopSome v w rest a r a2 hc hr ih => intro hres; exact absurd hres (by simp)
  | loopNone v w rest a a2 res a3 hc hr hk ihr ihk =>
    intro hres hkey
    have ha2 : a2 = insertA a v w := ihr rfl
    have hera : eraseA a2 v = a := by
      rw [ha2, insertA_of_not_hasKey hkey]
      exact eraseA_append hkey
    have hfin := ihk hres (hasKey_eraseA a2 v)
    rw [hera] at hfin
    exact hfin
  | loopBad v w rest a res a3 hc hk ihk =>
    intro hres hkey
    have hera : eraseA (insertA a v w) v = a := by
      rw [insertA_of_not_hasKey hkey]
      exact eraseA_append hkey
    have hfin := ihk hres (hasKey_eraseA _ v)
    rw [hera] at hfin
    exact hfin

theorem solutionCheck_iff {c : Crossword} {f : Variable → Word} :
    solutionCheck c f = true ↔
      (∀ v ∈ c.vars, f v ∈ c.words ∧ (f v).length = v.length) ∧
      (∀ u ∈ c.vars, ∀ v ∈ c.vars, u ≠ v → f u ≠ f v ∧
        ∀ i j, c.overlaps u v = some (i, j) → (f u)[i]? = (f v)[j]?) := by
  unfold solutionCheck
  rw [Bool.and_eq_true, List.all_eq_true, List.all_eq_true]
  constructor
  · rintro ⟨h1, h2⟩
    refine ⟨?_, ?_⟩
    · intro v hv
      have := h1 v hv
      rw [Bool.and_eq_true, decide_eq_true_eq, decide_eq_true_eq] at this
      exact this
    · intro u hu v hv hne
      have := h2 u hu
      rw [List.all_eq_true] at this
      have h3 := this v hv
      rw [if_neg hne, Bool.and_eq_true, decide_eq_true_eq] at h3
      refine ⟨h3.1, ?_⟩
      intro i j hov
      have h4 := h3.2
      rw [hov, decide_eq_true_eq] at h4
      exact h4
  · rintro ⟨h1, h2⟩
    refine ⟨?_, ?_⟩
    · intro v hv
      rw [Bool.and_eq_true, decide_eq_true_eq, decide_eq_true_eq]
      exact h1 v hv
    · intro u hu
      rw [List.all_eq_true]
      intro v hv
      by_cases hne : u = v
      · rw [if_pos hne]
      · rw [if_neg hne, Bool.and_eq_true, decide_eq_true_eq]
        refine ⟨(h2 u hu v hv hne).1, ?_⟩
        cases hov : c.overlaps u v with
        | none => rfl
        | some r =>
          obtain ⟨i, j⟩ := r
          rw [decide_eq_true_eq]
          exact (h2 u hu v hv hne).2 i j hov

theorem olapW_symm : ∀ x y i j, olapW x y = some (i, j) → olapW y x = some (j, i) := by
  intro x y i j h
  unfold olapW at h
  by_cases h1 : x = vA ∧ y = vB
  · rw [if_pos h1] at h
    injection h with h2
    rw [Prod.mk.injEq] at h2
    obtain ⟨h3, h4⟩ := h2
    subst h3
    subst h4
    obtain ⟨hx, hy⟩ := h1
    subst hx
    subst hy
    decide
  · rw [if_neg h1] at h
    by_cases h2 : x = vB ∧ y = vA
    · rw [if_pos h2] at h
      injection h with h3
      rw [Prod.mk.injEq] at h3
      obtain ⟨h4, h5⟩ := h3
      subst h4
      subst h5
      obtain ⟨hx, hy⟩ := h2
      subst hx
      subst hy
      decide
    · rw [if_neg h2] at h
      exact absurd h (by simp)

theorem olapW_bounds : ∀ x y i j, olapW x y = some (i, j) →
    i < x.length ∧ j < y.length := by
  intro x y i j h
  unfold olapW at h
  by_cases h1 : x = vA ∧ y = vB
  · rw [if_pos h1] at h
    injection h with h2
    rw [Prod.mk.injEq] at h2
    obtain ⟨h3, h4⟩ := h2
    subst h3
    subst h4
    obtain ⟨hx, hy⟩ := h1
    subst hx
    subst hy
    decide
  · rw [if_neg h1] at h
    by_cases h2 : x = vB ∧ y = vA
    · rw [if_pos h2] at h
      injection h with h3
      rw [Prod.mk.injEq] at h3
      obtain ⟨h4, h5⟩ := h3
      subst h4
      subst h5
      obtain ⟨hx, hy⟩ := h2
      subst hx
      subst hy
      decide
    · rw [if_neg h2] at h
      exact absurd h (by simp)

theorem cW_symm : SymmOverlaps cW := olapW_symm

theorem cW_bounds : OverlapBounds cW := olapW_bounds

/-- C1, counterexample to the claim as stated: on the unsatisfiable example
instance, ac3 (as run by solve after node consistency) returns False, yet
solve does invoke backtrack (the instrumented solve counts at least one
invocation); solve ignores the Boolean result of ac3 rather than
short-circuiting. -/
theorem claim1_counterexample :
    (ac3 cU none (enforce_node_consistency (initialDomains cU))).1 = false ∧
    1 ≤ (solveI cU).2 ∧ (solveI cU).1 = solve cU := by decide

/-- C1, amended: whenever the ac3 pass run by solve returns False, solve
still returns None; backtrack is invoked anyway, but some domain is empty,
so the search fails immediately. -/
theorem claim1_amended (c : Crossword)
    (h : (ac3 c none (enforce_node_consistency (initialDomains c))).1 = false) :
    solve c = none := by
  rw [solve_eq]
  rw [ac3_none_eq] at h
  obtain ⟨v0, hv0, hd0⟩ :=
    ac3go_false_empty c _ _ _ (fun p hp => (defaultArcs_in_vars p hp).1) h
  apply backtrackGo_none_of_empty c _ v0 hv0 ?_ _ [] rfl
  rw [ac3_none_eq]
  exact hd0

/-- Witness for C1 amended: on the unsatisfiable example instance, the ac3
pass of solve returns False and solve returns None. -/
theorem claim1_amended_witness : solve cU = none :=
  claim1_amended cU (by decide)

/-- C2, backtracking soundness: whenever solve returns an assignment, that
assignment is complete (maps every variable of the instance to a word) and
passes consistent. -/
theorem claim2_backtracking_sound (c : Crossword) (a : Assignment)
    (h : solve c = some a) :
    assignment_complete c a = true ∧ consistent c a = true := by
  rw [solve_eq] at h
  exact backtrackGo_sound c _ _ [] a (consistent_nil c) h

/-- Witness for C2: on the satisfiable example instance, solve returns a
concrete assignment, which is complete and consistent. -/
theorem claim2_witness :
    assignment_complete cW aW = true ∧ consistent cW aW = true :=
  claim2_backtracking_sound cW aW (by decide)

/-- C3, backtracking completeness: if some total assignment of vocabulary
words to the variables is consistent (correct lengths, pairwise distinct
words, agreeing overlap letters), then solve returns an assignment. -/
theorem claim3_backtracking_complete (c : Crossword)
    (h : ∃ f, solutionCheck c f = true) :
    (solve c).isSome = true := by
  obtain ⟨f, hf⟩ := h
  rw [solutionCheck_iff] at hf
  obtain ⟨h1, h2⟩ := hf
  have hlen : ∀ v ∈ c.vars, (f v).length = v.length := fun v hv => (h1 v hv).2
  have hdist : ∀ u v, u ∈ c.vars → v ∈ c.vars → u ≠ v → f u ≠ f v :=
    fun u v hu hv hne => (h2 u hu v hv hne).1
  have hovf : ∀ u v, u ∈ c.vars → v ∈ c.vars → u ≠ v →
      ∀ i j, c.overlaps u v = some (i, j) → (f u)[i]? = (f v)[j]? :=
    fun u v hu hv hne i j hov => (h2 u hu v hv hne).2 i j hov
  have hd1 : ∀ v ∈ c.vars, f v ∈ enforce_node_consistency (initialDomains c) v := by
    intro v hv
    rw [enforce_node_consistency]
    rw [List.mem_filter]
    exact ⟨(h1 v hv).1, decide_eq_true_eq.mpr (h1 v hv).2⟩
  have hd2 : ∀ v ∈ c.vars,
      f v ∈ (ac3 c none (enforce_node_consistency (initialDomains c))).2 v := by
    rw [ac3_none_eq]
    exact ac3go_keep c f hovf _ _ _ defaultArcs_in_vars hd1
  have hne := backtrackGo_complete c _ f hlen hdist hovf hd2
    (unassignedCount c [] + 1) [] (Nat.lt_succ_self _) (by simp [keysA])
    (fun p hp => absurd hp (List.not_mem_nil p))
  rw [solve_eq]
  cases hres : backtrackGo c
      ((ac3 c none (enforce_node_consistency (initialDomains c))).2)
      (unassignedCount c [] + 1) [] with
  | none => exact absurd hres hne
  | some r => rfl

/-- Witness for C3: the example instance has the solution assigning CAT to
the across slot and ART to the down slot, so solve returns an assignment. -/
theorem claim3_witness : (solve cW).isSome = true :=
  claim3_backtracking_complete cW ⟨fW, by decide⟩

/-- C4, arc-consistency soundness: if ac3 with the default arc list returns
True, then for every ordered pair of distinct instance variables with an
overlap (i, j), every word left in the domain of x has a supporting word in
the domain of y agreeing on the shared letter.  Uses the spec precondition
that the overlap relation is symmetric with swapped indices. -/
theorem claim4_ac3_sound (c : Crossword) (d : Domains) (hsym : SymmOverlaps c)
    (x y : Variable) (i j : Nat) (hx : x ∈ c.vars) (hy : y ∈ c.vars)
    (hxy : x ≠ y) (hov : c.overlaps x y = some (i, j))
    (hres : (ac3 c none d).1 = true) :
    ∀ w ∈ (ac3 c none d).2 x, ∃ w2 ∈ (ac3 c none d).2 y, w[i]? = w2[j]? := by
  rw [ac3_none_eq] at hres ⊢
  have hsound := ac3go_sound c hsym (ac3Measure c (defaultArcs c) d + 1)
    (defaultArcs c) d (Nat.lt_succ_self _) defaultArcs_distinct ?_ hres x y hx hy hxy
  · exact fun w hw => hsound i j hov w hw
  · intro u v hu hv huv hiss
    exact Or.inl (mem_defaultArcs.mpr ⟨hu, mem_neighbors.mpr ⟨hv, Ne.symm huv, hiss⟩⟩)

/-- Witness for C4: on the example instance ac3 returns True and the word
CAT kept for the across slot has a supporting word in the down slot. -/
theorem claim4_witness :
    ∃ w2 ∈ (ac3 cW none (enforce_node_consistency (initialDomains cW))).2 vB,
      ("CAT".toList)[1]? = w2[0]? :=
  claim4_ac3_sound cW (enforce_node_consistency (initialDomains cW)) cW_symm
    vA vB 1 0 (by decide) (by decide) (by decide) (by decide) (by decide)
    "CAT".toList (by decide)

/-- C5, revise contract: with no overlap revise is a no-op returning false;
otherwise it leaves the other domains unchanged, keeps in the domain of x
exactly the words with a supporting word in the domain of y, and returns
True iff some word was removed. -/
theorem claim5_revise_contract (c : Crossword) (d : Domains) (x y : Variable) :
    (c.overlaps x y = none → revise c d x y = (false, d)) ∧
    (∀ v, v ≠ x → (revise c d x y).2 v = d v) ∧
    (∀ i j, c.overlaps x y = some (i, j) →
      (∀ w, w ∈ (revise c d x y).2 x ↔
        w ∈ d x ∧ ∃ w2 ∈ d y, w[i]? = w2[j]?) ∧
      ((revise c d x y).1 = true ↔
        ∃ w ∈ d x, w ∉ (revise c d x y).2 x)) := by
  refine ⟨revise_none_overlap, fun v hv => revise_snd_apply_ne hv, ?_⟩
  intro i j hov
  refine ⟨fun w => mem_revise_self hov, ?_⟩
  rw [revise_fst_iff hov]
  constructor
  · rintro ⟨w, hw, hns⟩
    refine ⟨w, hw, ?_⟩
    intro hmem
    obtain ⟨-, w2, hw2, he⟩ := (mem_revise_self hov).mp hmem
    exact hns w2 hw2 he
  · rintro ⟨w, hw, hnm⟩
    refine ⟨w, hw, ?_⟩
    intro w2 hw2 he
    exact hnm ((mem_revise_self hov).mpr ⟨hw, w2, hw2, he⟩)

/-- Witness for C5: on the unsatisfiable example instance revise removes
CAT (no supporting word) and reports a revision. -/
theorem claim5_witness :
    (revise cU (enforce_node_consistency (initialDomains cU)) vA vB).1 = true :=
  ((claim5_revise_contract cU (enforce_node_consistency (initialDomains cU))
      vA vB).2.2 1 0 (by decide)).2.mpr ⟨"CAT".toList, by decide, by decide⟩

/-- C6, consistency-checker characterization: an assignment passes
consistent iff its words are pairwise distinct, every word has the length
of its variable, and every ordered pair of distinct assigned variables with
an overlap agrees on the shared letter; unassigned variables play no role. -/
theorem claim6_consistent_iff (c : Crossword) (a : Assignment) :
    consistent c a = true ↔
      ((a.map Prod.snd).Nodup ∧
       (∀ p ∈ a, p.2.length = p.1.length) ∧
       (∀ p ∈ a, ∀ q ∈ a, p.1 ≠ q.1 →
         ∀ i j, c.overlaps p.1 q.1 = some (i, j) → p.2[i]? = q.2[j]?)) :=
  consistent_iff

/-- Witness for C6: the solved example assignment satisfies the three
characterizing properties. -/
theorem claim6_witness :
    (aW.map Prod.snd).Nodup ∧
    (∀ p ∈ aW, p.2.length = p.1.length) ∧
    (∀ p ∈ aW, ∀ q ∈ aW, p.1 ≠ q.1 →
      ∀ i j, cW.overlaps p.1 q.1 = some (i, j) → p.2[i]? = q.2[j]?) :=
  (claim6_consistent_iff cW aW).mp (by decide)

/-- C7, undo discipline: every terminating run of backtrack that returns
None leaves the assignment dict exactly as it was at call entry. -/
theorem claim7_backtrack_restores (c : Crossword) (d : Domains)
    (a afin : Assignment) (h : Run c d none a none afin) : afin = a := by
  have := run_restore c d none a none afin h rfl
  exact this

/-- Witness for C7: a concrete failing run on a one-variable instance with
an empty domain returns None with the dict restored to the empty
assignment. -/
theorem claim7_witness : ([] : Assignment) = [] :=
  claim7_backtrack_restores cE dE [] []
    (Run.enter [] vA none [] (by decide) (by decide) (Run.loopEnd vA []))

/-- C8, monotonicity: ac3 with any initial arc list, and every call to
revise, can only shrink domains: the resulting domain of every variable is
a subset of the one before, and no word is ever added. -/
theorem claim8_monotone (c : Crossword) :
    (∀ (arcs : Option (List (Variable × Variable))) (d : Domains)
      (v : Variable), (ac3 c arcs d).2 v ⊆ d v) ∧
    (∀ (d : Domains) (x y v : Variable), (revise c d x y).2 v ⊆ d v) := by
  constructor
  · intro arcs d v
    cases arcs with
    | none => rw [ac3_none_eq]; exact ac3go_subset c _ _ d v
    | some l => rw [ac3_some_eq]; exact ac3go_subset c _ _ d v
  · intro d x y v
    exact revise_subset

/-- Witness for C8: a word surviving ac3 on the example instance was
already in the domain before the call. -/
theorem claim8_witness :
    "CAT".toList ∈ enforce_node_consistency (initialDomains cW) vA :=
  (claim8_monotone cW).1 none (enforce_node_consistency (initialDomains cW)) vA
    (by decide)

/-- C9, variable-selector contract: the selector returns None iff the
assignment is complete; otherwise it returns an unassigned instance
variable whose (domain size, -degree) key is lexicographically smallest
among the unassigned variables. -/
theorem claim9_selector (c : Crossword) (d : Domains) (a : Assignment) :
    (select_unassigned_variable c d a = none ↔
      assignment_complete c a = true) ∧
    (∀ v, select_unassigned_variable c d a = some v →
      v ∈ c.vars ∧ hasKey a v = false ∧
      ∀ u ∈ c.vars, hasKey a u = false →
        keyLt (selectKey c d v) (selectKey c d u) = true ∨
          selectKey c d v = selectKey c d u) := by
  refine ⟨select_eq_none_iff, ?_⟩
  intro v hv
  obtain ⟨h1, h2, h3⟩ := select_eq_some hv
  refine ⟨h1, h2, ?_⟩
  intro u hu hku
  rcases keyLt_trichotomy (selectKey c d v) (selectKey c d u) with h | h | h
  · exact Or.inl h
  · rw [h3 u hu hku] at h
    exact absurd h (by simp)
  · exact Or.inr h

/-- Witness for C9: on the example instance after ac3, the selector picks
the down slot, which is unassigned and has the strictly smaller key. -/
theorem claim9_witness :
    vB ∈ cW.vars ∧ hasKey [] vB = false ∧
    ∀ u ∈ cW.vars, hasKey [] u = false →
      keyLt (selectKey cW ((ac3 cW none (enforce_node_consistency (initialDomains cW))).2) vB)
          (selectKey cW ((ac3 cW none (enforce_node_consistency (initialDomains cW))).2) u) = true ∨
        selectKey cW ((ac3 cW none (enforce_node_consistency (initialDomains cW))).2) vB =
          selectKey cW ((ac3 cW none (enforce_node_consistency (initialDomains cW))).2) u :=
  (claim9_selector cW ((ac3 cW none (enforce_node_consistency (initialDomains cW))).2) []).2
    vB (by decide)

/-- C10, indexing safety of the consistency checker: under the instance
precondition that overlap indices lie within their variable lengths, the
bounds-checked consistent never raises (never returns none) and computes
exactly what consistent computes, because any ill-sized word is rejected by
the length check before any overlap letter is read. -/
theorem claim10_consistent_safe (c : Crossword) (hb : OverlapBounds c)
    (a : Assignment) : consistentChecked c a = some (consistent c a) :=
  consistentChecked_eq hb a

/-- Witness for C10: on the example instance the checked consistency of the
solved assignment is some of the unchecked one. -/
theorem claim10_witness :
    consistentChecked cW aW = some (consistent cW aW) :=
  claim10_consistent_safe cW cW_bounds aW

end CW
